import Mathlib

/-!
Verification of scripts/check_udf_registration.py: a static checker that scans
a Rust source tree for types implementing ScalarUDFImpl or AggregateUDFImpl,
applies three textual exclusion filters (line/block comments, allow(dead_code)
markers, pub(super)-only visibility), extracts registered names from lib.rs,
and reports the set difference.  Texts are embedded as lists of characters;
the Python regular expressions are embedded as executable matchers over those
lists (word and space classes restricted to their ASCII fragments, which is
what the scanned Rust identifiers use).
-/

/-- ASCII fragment of the regex word class used by the patterns. -/
def isWordChar (c : Char) : Bool := c.isAlpha || c.isDigit || c = '_'

/-- ASCII fragment of Python whitespace, as used by the space class and str.strip. -/
def isSpaceCh (c : Char) : Bool :=
  c = ' ' || c = '\t' || c = '\n' || c = '\r' || c = '\x0b' || c = '\x0c'

/-- Strip a literal token from the front of a text; some rest on success. -/
def stripLit : List Char → List Char → Option (List Char)
  | [], s => some s
  | _ :: _, [] => none
  | l :: ls, c :: cs => if c = l then stripLit ls cs else none

/-- Match one-or-more whitespace characters at the front, maximal munch.
All uses have a non-space literal or a word character next, so maximal
munch agrees with the greedy regex quantifier. -/
def stripWS1 : List Char → Option (List Char)
  | [] => none
  | c :: cs => if isSpaceCh c then some (List.dropWhile isSpaceCh cs) else none

/-- Python str.count for a two-character pattern: non-overlapping
occurrences, scanned left to right (content.count in the script). -/
def countSub2 (a b : Char) : List Char → Nat
  | x :: y :: rest =>
      if x = a ∧ y = b then countSub2 a b rest + 1 else countSub2 a b (y :: rest)
  | _ => 0

/-- content[line_start:position] where line_start = content.rfind of a
newline in content[0:position], plus one (is_commented_out, lines 100-102). -/
def lineBefore (c : List Char) (pos : Nat) : List Char :=
  ((c.take pos).reverse.takeWhile (fun ch => ch ≠ '\n')).reverse

/-- Python str.strip (ASCII whitespace fragment). -/
def pyStrip (s : List Char) : List Char :=
  ((s.dropWhile isSpaceCh).reverse.dropWhile isSpaceCh).reverse

/-- Python startswith for the line-comment marker. -/
def startsWithSlashes : List Char → Bool
  | '/' :: '/' :: _ => true
  | _ => false

/-- Block-comment component of is_commented_out (lines 108-114 of the
script): unmatched open markers in the text before the position. -/
def blockCommentCheck (content : List Char) (position : Nat) : Bool :=
  decide (countSub2 '/' '*' (content.take position)
            > countSub2 '*' '/' (content.take position))

/-- Embedding of is_commented_out from check_udf_registration.py. -/
def is_commented_out (content : List Char) (position : Nat) : Bool :=
  startsWithSlashes (pyStrip (lineBefore content position)) ||
  blockCommentCheck content position

/-- Head of a text is a given character. -/
def headIs (b : Char) : List Char → Bool
  | [] => false
  | y :: _ => decide (y = b)

/-- A two-character marker occurs at index i of the text. -/
def pairAt (a b : Char) (c : List Char) (i : Nat) : Bool :=
  match c.drop i with
  | [] => false
  | x :: rest => decide (x = a) && headIs b rest

/-- Number of occurrences of the marker ab lying entirely before offset
pos: the spec reading of markers occurring in the text strictly before
the offset. -/
def markersBefore (a b : Char) (c : List Char) (pos : Nat) : Nat :=
  (List.range c.length).countP (fun i => decide (i + 2 ≤ pos) && pairAt a b c i)

/-- Python re.search: some position of the text starts a match. -/
def searchB (m : List Char → Bool) (s : List Char) : Bool :=
  (List.range (s.length + 1)).any (fun i => m (s.drop i))

/-- The regex word boundary after a word-character run: the next character
is not a word character, or the text ends. -/
def noWordAhead : List Char → Bool
  | [] => true
  | ch :: _ => !isWordChar ch

def structLit : List Char := "struct".toList

def pubSuperLit : List Char := "pub(super)".toList

def pubLit : List Char := "pub".toList

def pubCrateLit : List Char := "pub(crate)".toList

/-- Matcher for a visibility pattern of is_pub_super_only at the front of
a text: the literal qualifier, one-or-more whitespace, the struct keyword,
one-or-more whitespace, the type name, then a word boundary. -/
def visMatchAt (vis name s : List Char) : Bool :=
  match stripLit vis s with
  | none => false
  | some s1 =>
    match stripWS1 s1 with
    | none => false
    | some s2 =>
      match stripLit structLit s2 with
      | none => false
      | some s3 =>
        match stripWS1 s3 with
        | none => false
        | some s4 =>
          match stripLit name s4 with
          | none => false
          | some s5 => noWordAhead s5

/-- Embedding of is_pub_super_only from check_udf_registration.py. -/
def is_pub_super_only (content name : List Char) : Bool :=
  searchB (visMatchAt pubSuperLit name) content &&
  !searchB (visMatchAt pubLit name) content &&
  !searchB (visMatchAt pubCrateLit name) content

/-- Spec-side reading: the file contains a struct definition of the name
carrying the given visibility qualifier, stated as a decomposition of the
file text. -/
def containsVisDef (vis name content : List Char) : Prop :=
  ∃ pre rest, content = pre ++ rest ∧ visMatchAt vis name rest = true

def markerLit : List Char := "#[allow(dead_code)]".toList

/-- Matcher for the struct keyword, one-or-more whitespace, the type name,
then a word boundary, at the front of a text. -/
def structNameAt (name s : List Char) : Bool :=
  match stripLit structLit s with
  | none => false
  | some s1 =>
    match stripWS1 s1 with
    | none => false
    | some s2 =>
      match stripLit name s2 with
      | none => false
      | some s3 => noWordAhead s3

/-- Word boundary before the struct keyword when a gap follows the
dead-code marker: the character preceding the keyword is the last gap
character, or the closing bracket of the marker when the gap is empty;
the bracket is a non-word character, so an empty gap is accepted. -/
def gapOk (g : List Char) : Bool :=
  match g.reverse with
  | [] => true
  | ch :: _ => !isWordChar ch

/-- First pattern of has_allow_dead_code: the marker, a same-line gap,
then a struct definition of the name. -/
def pat1At (name s : List Char) : Bool :=
  match stripLit markerLit s with
  | none => false
  | some r =>
    (List.range (r.length + 1)).any (fun k =>
      (r.take k).all (fun ch => ch ≠ '\n') && gapOk (r.take k) &&
        structNameAt name (r.drop k))

/-- Second pattern of has_allow_dead_code: the marker, the rest of its
line, one newline, part of the next line, then a struct definition of the
name. -/
def pat2At (name s : List Char) : Bool :=
  match stripLit markerLit s with
  | none => false
  | some r =>
    (List.range (r.length + 1)).any (fun k =>
      (r.take k).all (fun ch => ch ≠ '\n') &&
        (match r.drop k with
         | '\n' :: r2 =>
           (List.range (r2.length + 1)).any (fun j =>
             (r2.take j).all (fun ch => ch ≠ '\n') && gapOk (r2.take j) &&
               structNameAt name (r2.drop j))
         | _ => false))

/-- Embedding of has_allow_dead_code from check_udf_registration.py. -/
def has_allow_dead_code (content name : List Char) : Bool :=
  searchB (pat1At name) content || searchB (pat2At name) content

/-- Positional characterization of the dead-code filter: the marker occurs
and a struct definition of the name follows it, with at most one newline
between the marker and the struct keyword, the keyword being preceded by a
non-word character or by the marker bracket itself. -/
def markerThenDef (name content : List Char) : Prop :=
  ∃ pre g t, content = pre ++ (markerLit ++ (g ++ t)) ∧
    g.count '\n' ≤ 1 ∧ gapOk g = true ∧ structNameAt name t = true

/-- Matcher for a struct definition of some type name at the front of a
text: the struct keyword, whitespace, then a word character. -/
def structAnyAt (s : List Char) : Bool :=
  match stripLit structLit s with
  | none => false
  | some s1 =>
    match stripWS1 s1 with
    | none => false
    | some s2 =>
      match s2 with
      | ch :: _ => isWordChar ch
      | [] => false

/-- Modelled from the spec: the suppression marker is attached to the
definition of the given name when that definition is the one the marker
immediately precedes, i.e. no other struct definition stands in the gap
between the marker and the definition of the name, the definition sitting
on the marker line or the line directly below. -/
def attachedSuppression (name content : List Char) : Bool :=
  (List.range (content.length + 1)).any (fun i =>
    match stripLit markerLit (content.drop i) with
    | none => false
    | some r =>
      (List.range (r.length + 1)).any (fun k =>
        decide ((r.take k).count '\n' ≤ 1) && gapOk (r.take k) &&
          structNameAt name (r.drop k) && !searchB structAnyAt (r.take k)))

/-- Example file for C5: the marker is attached to struct A, while Foo is
defined later on the same line. -/
def exAttachOther : List Char :=
  "#[allow(dead_code)] struct A; struct Foo;".toList

def fooName : List Char := "Foo".toList

/-- Example file: a type with a wide-visibility definition only. -/
def exNoLocal : List Char := "pub struct Foo;".toList

/-- Example file: both a pub(super) and a pub definition of the same name. -/
def exBothVis : List Char := "pub(super) struct Foo; pub struct Foo;".toList

def exBothVisA : List Char := "pub(super) struct Foo; ".toList

def exBothVisB : List Char := "pub struct Foo;".toList

def implLit : List Char := "impl".toList

def forLit : List Char := "for".toList

def scalarKw : List Char := "ScalarUDFImpl".toList

def aggregateKw : List Char := "AggregateUDFImpl".toList

/-- Matcher for an implementation pattern at the front of a text: the impl
keyword, whitespace, the capability trait name, whitespace, the for
keyword, whitespace, then a captured word run.  Returns the captured name
and the rest of the text after the match. -/
def implMatchAt (kw : List Char) (s : List Char) : Option (List Char × List Char) :=
  match stripLit implLit s with
  | none => none
  | some s1 =>
    match stripWS1 s1 with
    | none => none
    | some s2 =>
      match stripLit kw s2 with
      | none => none
      | some s3 =>
        match stripWS1 s3 with
        | none => none
        | some s4 =>
          match stripLit forLit s4 with
          | none => none
          | some s5 =>
            match stripWS1 s5 with
            | none => none
            | some s6 =>
              let w := s6.takeWhile isWordChar
              if w.isEmpty then none else some (w, s6.drop w.length)

/-- Python re.finditer: scan left to right, take the leftmost match and
resume after its end.  The fuel bounds the recursion and is set to the
text length; every successful match consumes at least one character, so
the fuel never runs out before the text does. -/
def scanWith (m : List Char → Option (List Char × List Char)) :
    Nat → List Char → Nat → List (Nat × List Char)
  | 0, _, _ => []
  | _ + 1, [], _ => []
  | fuel + 1, c :: rest, i =>
    match m (c :: rest) with
    | some (name, after) =>
      (i, name) :: scanWith m fuel after (i + ((c :: rest).length - after.length))
    | none => scanWith m fuel rest (i + 1)

def scanMatches (m : List Char → Option (List Char × List Char))
    (content : List Char) : List (Nat × List Char) :=
  scanWith m content.length content 0

/-- All implementation-declaration matches of a file with their offsets:
the scalar pass followed by the aggregate pass, as in
find_udf_implementations. -/
def implScanAll (content : List Char) : List (Nat × List Char) :=
  scanMatches (implMatchAt scalarKw) content ++
    scanMatches (implMatchAt aggregateKw) content

/-- The three exclusion filters of find_udf_implementations applied to one
match: not commented out, no dead-code marker, not pub(super)-only. -/
def passesFilters (content : List Char) (p : Nat × List Char) : Bool :=
  !is_commented_out content p.1 && !has_allow_dead_code content p.2 &&
    !is_pub_super_only content p.2

/-- Candidate names contributed by one file. -/
def fileCandidates (content : List Char) : Finset (List Char) :=
  (((implScanAll content).filter (passesFilters content)).map Prod.snd).toFinset

/-- Embedding of find_udf_implementations: the union of the per-file
candidate sets over the scanned files. -/
def find_udf_implementations (files : List (List Char)) : Finset (List Char) :=
  (files.map fileCandidates).foldr (fun a b => a ∪ b) ∅

def regUdfLit : List Char := "register_udf(crate::udf::".toList

def regUdafLit : List Char := "register_udaf(crate::udf::".toList

def colonColon : List Char := "::".toList

def regTailLit : List Char := "::default().into())".toList

/-- Matcher for the tail of a registration pattern at the front of a text:
two colons, the captured word run, then the default-into suffix. -/
def regTail (s : List Char) : Option (List Char × List Char) :=
  match stripLit colonColon s with
  | none => none
  | some s1 =>
    let w := s1.takeWhile isWordChar
    if w.isEmpty then none
    else
      match stripLit regTailLit (s1.drop w.length) with
      | none => none
      | some s2 => some (w, s2)

/-- Greedy one-or-more characters other than a closing parenthesis: longer
gaps are tried first, as regex backtracking does. -/
def regAfterGap (s : List Char) : Nat → Option (List Char × List Char)
  | 0 => none
  | k + 1 =>
    match (if (s.take (k + 1)).all (fun ch => ch ≠ ')') then
             regTail (s.drop (k + 1)) else none) with
    | some r => some r
    | none => regAfterGap s k

/-- Matcher for a registration-call pattern at the front of a text. -/
def regMatchAt (lead : List Char) (s : List Char) : Option (List Char × List Char) :=
  match stripLit lead s with
  | none => none
  | some s1 => regAfterGap s1 ((s1.takeWhile (fun ch => ch ≠ ')')).length)

/-- All registration-call matches of the central file with their offsets:
the register_udf pass followed by the register_udaf pass. -/
def regScanAll (lib : List Char) : List (Nat × List Char) :=
  scanMatches (regMatchAt regUdfLit) lib ++
    scanMatches (regMatchAt regUdafLit) lib

/-- Embedding of find_registered_udfs: every match is added, no filter. -/
def find_registered_udfs (lib : List Char) : Finset (List Char) :=
  ((regScanAll lib).map Prod.snd).toFinset

/-- The file-system inputs of one run: whether the implementation root
directory exists, the contents of the source files found under it in
traversal order, and the content of the central registration file when it
exists. -/
structure FS where
  udfDirExists : Bool
  udfFiles : List (List Char)
  libRs : Option (List Char)

/-- pathlib Path.rglob yields nothing when the root directory does not
exist (its selector first checks is_dir); the script performs no existence
check of its own. -/
def rglobFiles (fs : FS) : List (List Char) :=
  if fs.udfDirExists then fs.udfFiles else []

/-- One printed line of the report, by section. -/
inductive Line where
  | header : Line
  | implCount : Nat → Line
  | implItem : List Char → Line
  | libMissing : Line
  | regCount : Nat → Line
  | regItem : List Char → Line
  | missingCount : Nat → Line
  | missingItem : List Char → Line
  | advice : Line
  | success : Line
deriving DecidableEq

/-- Python sorted() over a set of names, lexicographic by character. -/
def sortNames (s : Finset (List Char)) : List (List Char) :=
  s.sort (fun a b => a ≤ b)

/-- Embedding of main: the printed report lines in order and the exit
code.  When lib.rs is missing, find_registered_udfs prints the error and
exits 1 — after the candidate listing, which main prints first. -/
def mainRun (fs : FS) : List Line × Nat :=
  let impls := find_udf_implementations (rglobFiles fs)
  let head := [Line.header, Line.implCount impls.card] ++
    (sortNames impls).map Line.implItem
  match fs.libRs with
  | none => (head ++ [Line.libMissing], 1)
  | some lib =>
    let reg := find_registered_udfs lib
    let head2 := head ++ [Line.regCount reg.card] ++
      (sortNames reg).map Line.regItem
    let missing := impls \ reg
    if missing.Nonempty then
      (head2 ++ [Line.missingCount missing.card] ++
        (sortNames missing).map Line.missingItem ++ [Line.advice], 1)
    else
      (head2 ++ [Line.success], 0)

def lineImplName : Line → Option (List Char)
  | Line.implItem n => some n
  | _ => none

def lineRegName : Line → Option (List Char)
  | Line.regItem n => some n
  | _ => none

def lineMissingName : Line → Option (List Char)
  | Line.missingItem n => some n
  | _ => none

/-- Start of the line containing the offset. -/
def lineStartAt (c : List Char) (pos : Nat) : Nat :=
  pos - (lineBefore c pos).length

/-- End of the line containing the offset: the next newline or the text
end. -/
def lineEndAt (c : List Char) (pos : Nat) : Nat :=
  pos + ((c.drop pos).takeWhile (fun ch => ch ≠ '\n')).length

/-- Example file for C4: the impl line is enclosed between an open marker
and a later close marker, but a stray close marker earlier in the file
balances the heuristic count. -/
def exStrayClose : List Char :=
  "*/\n/*\nimpl ScalarUDFImpl for Foo\n*/\n".toList

/-- Example file for the C4 witness: a commented-out implementation. -/
def exCommentedImpl : List Char :=
  "/*\nimpl ScalarUDFImpl for Foo\n*/".toList

/-- Example file with a single scalar implementation. -/
def exImplFile : List Char := "impl ScalarUDFImpl for Foo".toList

/-- Example file with a different single scalar implementation. -/
def exImplFileB : List Char := "impl ScalarUDFImpl for Bar".toList

/-- Example central file: the only registration call sits in a line
comment. -/
def exRegCommented : List Char :=
  "// register_udf(crate::udf::x::Foo::default().into())".toList

def fsEmpty : FS := ⟨true, [], some []⟩

def fsNoDir : FS := ⟨false, [], some []⟩

def fsLibMissing : FS := ⟨true, [exImplFile], none⟩

def fsPermA : FS := ⟨true, [exImplFile, exImplFileB], some []⟩

def fsPermB : FS := ⟨true, [exImplFileB, exImplFile], some []⟩

/-- Example file: a marker attached to the definition on the next line. -/
def exAttached : List Char := "#[allow(dead_code)]\nstruct Foo;".toList

def structFooTail : List Char := "struct Foo;".toList

def fsNoDirB : FS := ⟨false, [exImplFile], some []⟩

def fsLibMissingB : FS := ⟨true, [], none⟩

theorem countP_range_succ (q : Nat → Bool) (m : Nat) :
    (List.range (m + 1)).countP q
      = (if q 0 then 1 else 0) + (List.range m).countP (fun i => q (i + 1)) := by
  rw [List.range_succ_eq_map, List.countP_cons]
  have hmap : (List.map Nat.succ (List.range m)).countP q
      = (List.range m).countP (fun i => q (i + 1)) := by
    induction List.range m with
    | nil => rfl
    | cons x xs ih => simp [List.countP_cons, ih, Nat.succ_eq_add_one]
  rw [hmap]; omega

theorem pairAt_cons (a b x : Char) (s : List Char) (i : Nat) :
    pairAt a b (x :: s) (i + 1) = pairAt a b s i := by
  simp [pairAt]

theorem countSub2_eq_countP (a b : Char) (hab : a ≠ b) :
    (s : List Char) →
      countSub2 a b s = (List.range s.length).countP (fun i => pairAt a b s i)
  | [] => by simp [countSub2]
  | [x] => by
    rw [show ([x] : List Char).length = 0 + 1 from rfl, countP_range_succ]
    simp [countSub2, pairAt, headIs]
  | x :: y :: rest => by
    have ih := countSub2_eq_countP a b hab rest
    have hshift1 : (List.range (y :: rest).length).countP
          (fun i => pairAt a b (x :: y :: rest) (i + 1))
        = (List.range (y :: rest).length).countP (fun i => pairAt a b (y :: rest) i) := by
      apply List.countP_congr; intro i _; rw [pairAt_cons]
    have hshift2 : (List.range rest.length).countP
          (fun i => pairAt a b (y :: rest) (i + 1))
        = (List.range rest.length).countP (fun i => pairAt a b rest i) := by
      apply List.countP_congr; intro i _; rw [pairAt_cons]
    by_cases h : x = a ∧ y = b
    · have p0 : pairAt a b (x :: y :: rest) 0 = true := by
        simp [pairAt, headIs, h.1, h.2]
      have p1 : pairAt a b (y :: rest) 0 = false := by
        have hy : y ≠ a := by rw [h.2]; intro hy; exact hab hy.symm
        simp [pairAt, hy]
      have hc : countSub2 a b (x :: y :: rest) = countSub2 a b rest + 1 := by
        simp [countSub2, h]
      have e1 : (List.range (x :: y :: rest).length).countP
            (fun i => pairAt a b (x :: y :: rest) i)
          = 1 + (List.range (y :: rest).length).countP
              (fun i => pairAt a b (y :: rest) i) := by
        rw [show (x :: y :: rest).length = (y :: rest).length + 1 from rfl,
          countP_range_succ, hshift1]
        simp [p0]
      have e2 : (List.range (y :: rest).length).countP
            (fun i => pairAt a b (y :: rest) i)
          = (List.range rest.length).countP (fun i => pairAt a b rest i) := by
        rw [show (y :: rest).length = rest.length + 1 from rfl,
          countP_range_succ, hshift2]
        simp [p1]
      omega
    · have ih2 := countSub2_eq_countP a b hab (y :: rest)
      have p0 : pairAt a b (x :: y :: rest) 0 = false := by
        by_cases hx : x = a
        · have hy : y ≠ b := fun hy => h ⟨hx, hy⟩
          simp [pairAt, headIs, hy]
        · simp [pairAt, hx]
      have hc : countSub2 a b (x :: y :: rest) = countSub2 a b (y :: rest) := by
        simp [countSub2, h]
      have e1 : (List.range (x :: y :: rest).length).countP
            (fun i => pairAt a b (x :: y :: rest) i)
          = (List.range (y :: rest).length).countP
              (fun i => pairAt a b (y :: rest) i) := by
        rw [show (x :: y :: rest).length = (y :: rest).length + 1 from rfl,
          countP_range_succ, hshift1]
        simp [p0]
      omega

theorem countP_range_ext (p : Nat → Bool) (m n : Nat) (hmn : m ≤ n)
    (hp : ∀ i, m ≤ i → p i = false) :
    (List.range n).countP p = (List.range m).countP p := by
  induction n with
  | zero => have h0 : m = 0 := Nat.le_zero.mp hmn; rw [h0]
  | succ k ih =>
    rcases Nat.lt_or_ge m (k + 1) with hlt | hge
    · have hmk : m ≤ k := Nat.lt_succ_iff.mp hlt
      rw [List.range_succ, List.countP_append, ih hmk]
      simp [List.countP_cons, hp k hmk]
    · have hm : m = k + 1 := Nat.le_antisymm hmn hge
      rw [hm]

theorem pairAt_take (a b : Char) (c : List Char) (pos i : Nat) :
    pairAt a b (c.take pos) i = (decide (i + 2 ≤ pos) && pairAt a b c i) := by
  have hdt : (c.take pos).drop i = (c.drop i).take (pos - i) := List.drop_take pos i c
  unfold pairAt
  rw [hdt]
  rcases hd : c.drop i with _ | ⟨x, rest⟩
  · simp
  · rcases hpi : pos - i with _ | k
    · have hle : ¬ (i + 2 ≤ pos) := by omega
      simp [hle]
    · rcases k with _ | k2
      · have hle : ¬ (i + 2 ≤ pos) := by omega
        simp [hle, headIs]
      · have hle : i + 2 ≤ pos := by omega
        cases rest with
        | nil => simp [hle, headIs]
        | cons y t => simp [hle, headIs]

theorem countSub2_take_eq_markersBefore (a b : Char) (hab : a ≠ b)
    (c : List Char) (pos : Nat) :
    countSub2 a b (c.take pos) = markersBefore a b c pos := by
  rw [countSub2_eq_countP a b hab]
  unfold markersBefore
  have hcong : (List.range (c.take pos).length).countP
        (fun i => pairAt a b (c.take pos) i)
      = (List.range (c.take pos).length).countP
        (fun i => decide (i + 2 ≤ pos) && pairAt a b c i) := by
    apply List.countP_congr; intro i _; rw [pairAt_take]
  rw [hcong, List.length_take]
  symm
  apply countP_range_ext _ _ _ (Nat.min_le_right pos c.length)
  intro i hi
  by_cases hip : i + 2 ≤ pos
  · have hlen : c.length ≤ i := by omega
    have hdrop : c.drop i = [] := List.drop_eq_nil_of_le hlen
    simp [pairAt, hdrop]
  · simp [hip]

/-- C3: the block-comment judgment of the comment filter holds exactly when
the block-comment-open markers lying strictly before the offset outnumber
the block-comment-close markers lying strictly before the offset. -/
theorem C3_block_comment_heuristic (content : List Char) (position : Nat) :
    blockCommentCheck content position = true ↔
      markersBefore '/' '*' content position
        > markersBefore '*' '/' content position := by
  unfold blockCommentCheck
  rw [decide_eq_true_eq,
    countSub2_take_eq_markersBefore '/' '*' (by decide) content position,
    countSub2_take_eq_markersBefore '*' '/' (by decide) content position]

theorem searchB_iff (m : List Char → Bool) (s : List Char) :
    searchB m s = true ↔ ∃ pre rest, s = pre ++ rest ∧ m rest = true := by
  unfold searchB
  rw [List.any_eq_true]
  constructor
  · rintro ⟨i, _, hm⟩
    exact ⟨s.take i, s.drop i, (List.take_append_drop i s).symm, hm⟩
  · rintro ⟨pre, rest, hs, hm⟩
    refine ⟨pre.length, ?_, ?_⟩
    · rw [List.mem_range, hs, List.length_append]; omega
    · rw [hs, List.drop_left]; exact hm

theorem containsVisDef_iff (vis name content : List Char) :
    containsVisDef vis name content ↔
      searchB (visMatchAt vis name) content = true := by
  unfold containsVisDef
  exact (searchB_iff _ _).symm

/-- C2: the visibility filter excludes a type name exactly when the file
contains a pub(super) struct definition of that name and no pub and no
pub(crate) struct definition of it; in particular, when both a restricted
and a wider-visibility definition are present, the name is not excluded. -/
theorem C2_restricted_visibility (content name : List Char) :
    (is_pub_super_only content name = true ↔
      (containsVisDef pubSuperLit name content ∧
        ¬ containsVisDef pubLit name content ∧
        ¬ containsVisDef pubCrateLit name content)) ∧
    (containsVisDef pubSuperLit name content →
      (containsVisDef pubLit name content ∨
        containsVisDef pubCrateLit name content) →
      is_pub_super_only content name = false) := by
  rw [containsVisDef_iff, containsVisDef_iff, containsVisDef_iff]
  unfold is_pub_super_only
  constructor
  · cases searchB (visMatchAt pubSuperLit name) content <;>
      cases searchB (visMatchAt pubLit name) content <;>
        cases searchB (visMatchAt pubCrateLit name) content <;> simp
  · intro h1 h2
    rcases h2 with h2 | h2 <;> simp [h1, h2]

theorem C2_witness : is_pub_super_only exBothVis fooName = false :=
  (C2_restricted_visibility exBothVis fooName).2
    ⟨[], exBothVis, (List.nil_append exBothVis).symm, by decide⟩
    (Or.inl ⟨exBothVisA, exBothVisB, by decide, by decide⟩)

/-- C10: a type name with no pub(super)-qualified definition in the file is
never excluded by the visibility filter, whatever other definitions exist. -/
theorem C10_no_qualifier_admitted (content name : List Char)
    (h : ¬ containsVisDef pubSuperLit name content) :
    is_pub_super_only content name = false := by
  have hb : searchB (visMatchAt pubSuperLit name) content = false := by
    cases hs : searchB (visMatchAt pubSuperLit name) content
    · rfl
    · exact absurd ((containsVisDef_iff pubSuperLit name content).mpr hs) h
  unfold is_pub_super_only
  rw [hb]
  rfl

theorem C10_witness : is_pub_super_only exNoLocal fooName = false :=
  C10_no_qualifier_admitted exNoLocal fooName
    (fun hc =>
      absurd ((containsVisDef_iff pubSuperLit fooName exNoLocal).mp hc)
        (by decide))

theorem stripLit_eq_some : (l s r : List Char) →
    (stripLit l s = some r ↔ s = l ++ r)
  | [], s, r => by simp [stripLit]
  | x :: xs, [], r => by simp [stripLit]
  | x :: xs, c :: cs, r => by
    by_cases hc : c = x
    · subst hc
      have hred : stripLit (c :: xs) (c :: cs) = stripLit xs cs := by
        simp [stripLit]
      rw [hred, stripLit_eq_some xs cs r]
      simp
    · simp [stripLit, hc]

theorem all_ne_newline_iff (g : List Char) :
    g.all (fun ch => ch ≠ '\n') = true ↔ g.count '\n' = 0 := by
  rw [List.all_eq_true, List.count_eq_zero]
  constructor
  · intro h hm
    have := h _ hm
    simp at this
  · intro h x hx
    simp only [ne_eq, decide_not, Bool.not_eq_true', decide_eq_false_iff_not]
    intro he
    rw [he] at hx
    exact h hx

theorem count_one_split (g : List Char) (h : g.count '\n' = 1) :
    ∃ g1 g2, g = g1 ++ '\n' :: g2 ∧ g1.count '\n' = 0 ∧ g2.count '\n' = 0 := by
  induction g with
  | nil => simp at h
  | cons c cs ih =>
    by_cases hc : c = '\n'
    · subst hc
      have hcs : cs.count '\n' = 0 := by
        rw [List.count_cons_self] at h
        omega
      exact ⟨[], cs, rfl, by simp, hcs⟩
    · have hcs : cs.count '\n' = 1 := by
        rw [List.count_cons_of_ne (fun he => hc he.symm)] at h
        exact h
      obtain ⟨g1, g2, he, h1, h2⟩ := ih hcs
      refine ⟨c :: g1, g2, by rw [he]; rfl, ?_, h2⟩
      rw [List.count_cons_of_ne (fun he2 => hc he2.symm)]
      exact h1

theorem gapOk_append_newline (g1 g2 : List Char) (h : gapOk g2 = true) :
    gapOk (g1 ++ '\n' :: g2) = true := by
  unfold gapOk at *
  rw [List.reverse_append, List.reverse_cons]
  rcases hg : g2.reverse with _ | ⟨y, ys⟩
  · simp [isWordChar]
  · rw [hg] at h
    simp only [List.append_assoc, List.cons_append]
    exact h

theorem gapOk_of_append_newline (g1 g2 : List Char)
    (h : gapOk (g1 ++ '\n' :: g2) = true) : gapOk g2 = true := by
  unfold gapOk at *
  rw [List.reverse_append, List.reverse_cons] at h
  rcases hg : g2.reverse with _ | ⟨y, ys⟩
  · rfl
  · rw [hg] at h
    simp only [List.append_assoc, List.cons_append] at h
    exact h

theorem pat1At_iff (name s : List Char) :
    pat1At name s = true ↔
      ∃ g t, s = markerLit ++ (g ++ t) ∧ g.count '\n' = 0 ∧
        gapOk g = true ∧ structNameAt name t = true := by
  unfold pat1At
  rcases hm : stripLit markerLit s with _ | r
  · simp only [Bool.false_eq_true, false_iff]
    rintro ⟨g, t, hsgt, -, -, -⟩
    have hsome := (stripLit_eq_some markerLit s (g ++ t)).mpr hsgt
    rw [hm] at hsome
    exact Option.noConfusion hsome
  · have hs : s = markerLit ++ r := (stripLit_eq_some markerLit s r).mp hm
    rw [List.any_eq_true]
    constructor
    · rintro ⟨k, -, hcond⟩
      rw [Bool.and_eq_true, Bool.and_eq_true] at hcond
      obtain ⟨⟨h1, h2⟩, h3⟩ := hcond
      exact ⟨r.take k, r.drop k, by rw [hs, List.take_append_drop],
        (all_ne_newline_iff _).mp h1, h2, h3⟩
    · rintro ⟨g, t, hgt, hcnt, hgap, hstruct⟩
      have hr : r = g ++ t := by
        have heq : markerLit ++ r = markerLit ++ (g ++ t) := by
          rw [← hs, hgt]
        exact List.append_cancel_left heq
      refine ⟨g.length, ?_, ?_⟩
      · rw [List.mem_range, hr, List.length_append]
        omega
      · rw [hr, List.take_left, List.drop_left, Bool.and_eq_true, Bool.and_eq_true]
        exact ⟨⟨(all_ne_newline_iff g).mpr hcnt, hgap⟩, hstruct⟩

theorem pat2At_iff (name s : List Char) :
    pat2At name s = true ↔
      ∃ g t, s = markerLit ++ (g ++ t) ∧ g.count '\n' = 1 ∧
        gapOk g = true ∧ structNameAt name t = true := by
  unfold pat2At
  rcases hm : stripLit markerLit s with _ | r
  · simp only [Bool.false_eq_true, false_iff]
    rintro ⟨g, t, hsgt, -, -, -⟩
    have hsome := (stripLit_eq_some markerLit s (g ++ t)).mpr hsgt
    rw [hm] at hsome
    exact Option.noConfusion hsome
  · have hs : s = markerLit ++ r := (stripLit_eq_some markerLit s r).mp hm
    rw [List.any_eq_true]
    constructor
    · rintro ⟨k, -, hcond⟩
      rw [Bool.and_eq_true] at hcond
      obtain ⟨h1, h2⟩ := hcond
      split at h2
      · rename_i r2 heq
        rw [List.any_eq_true] at h2
        obtain ⟨j, -, hj⟩ := h2
        rw [Bool.and_eq_true, Bool.and_eq_true] at hj
        obtain ⟨⟨hj1, hj2⟩, hj3⟩ := hj
        refine ⟨r.take k ++ '\n' :: r2.take j, r2.drop j, ?_, ?_, ?_, hj3⟩
        · rw [hs]
          congr 1
          rw [List.append_assoc, List.cons_append, List.take_append_drop,
            ← heq, List.take_append_drop]
        · rw [List.count_append, List.count_cons_self,
            (all_ne_newline_iff _).mp h1, (all_ne_newline_iff _).mp hj1]
        · exact gapOk_append_newline (r.take k) (r2.take j) hj2
      · exact absurd h2 (by simp)
    · rintro ⟨g, t, hgt, hcnt, hgap, hstruct⟩
      have hr : r = g ++ t := by
        have heq : markerLit ++ r = markerLit ++ (g ++ t) := by
          rw [← hs, hgt]
        exact List.append_cancel_left heq
      obtain ⟨g1, g2, hsplit, hc1, hc2⟩ := count_one_split g hcnt
      have hr2 : r = g1 ++ '\n' :: (g2 ++ t) := by
        rw [hr, hsplit, List.append_assoc, List.cons_append]
      refine ⟨g1.length, ?_, ?_⟩
      · rw [List.mem_range, hr2, List.length_append, List.length_cons]
        omega
      · rw [Bool.and_eq_true]
        constructor
        · rw [hr2, List.take_left]
          exact (all_ne_newline_iff g1).mpr hc1
        · rw [hr2, List.drop_left]
          have hinner : (List.range ((g2 ++ t).length + 1)).any (fun j =>
              ((g2 ++ t).take j).all (fun ch => ch ≠ '\n') &&
                gapOk ((g2 ++ t).take j) &&
                structNameAt name ((g2 ++ t).drop j)) = true := by
            rw [List.any_eq_true]
            refine ⟨g2.length, ?_, ?_⟩
            · rw [List.mem_range, List.length_append]
              omega
            · rw [List.take_left, List.drop_left, Bool.and_eq_true, Bool.and_eq_true]
              refine ⟨⟨(all_ne_newline_iff g2).mpr hc2, ?_⟩, hstruct⟩
              rw [hsplit] at hgap
              exact gapOk_of_append_newline g1 g2 hgap
          exact hinner

/-- C5 (amended): the suppression filter excludes a type name exactly when
the dead-code marker occurs followed by a struct definition of that name
whose struct keyword starts on the marker line or on the line directly
below, after a non-word character; whether the marker is attached to that
particular definition is not checked. -/
theorem C5_suppression_positional (content name : List Char) :
    has_allow_dead_code content name = true ↔ markerThenDef name content := by
  unfold has_allow_dead_code markerThenDef
  rw [Bool.or_eq_true, searchB_iff, searchB_iff]
  constructor
  · rintro (⟨pre, rest, hc, hm⟩ | ⟨pre, rest, hc, hm⟩)
    · obtain ⟨g, t, hrest, hcnt, hgap, hstr⟩ := (pat1At_iff name rest).mp hm
      exact ⟨pre, g, t, by rw [hc, hrest], by omega, hgap, hstr⟩
    · obtain ⟨g, t, hrest, hcnt, hgap, hstr⟩ := (pat2At_iff name rest).mp hm
      exact ⟨pre, g, t, by rw [hc, hrest], by omega, hgap, hstr⟩
  · rintro ⟨pre, g, t, hc, hcnt, hgap, hstr⟩
    rcases Nat.le_one_iff_eq_zero_or_eq_one.mp hcnt with h0 | h1
    · exact Or.inl ⟨pre, markerLit ++ (g ++ t), hc,
        (pat1At_iff name _).mpr ⟨g, t, rfl, h0, hgap, hstr⟩⟩
    · exact Or.inr ⟨pre, markerLit ++ (g ++ t), hc,
        (pat2At_iff name _).mpr ⟨g, t, rfl, h1, hgap, hstr⟩⟩

/-- C5 counterexample: in exAttachOther the marker is attached to the
definition of A, not to the definition of Foo, yet the filter excludes
Foo: exclusion is not restricted to definitions the marker is attached
to, refuting the claim as stated. -/
theorem C5_counterexample :
    has_allow_dead_code exAttachOther fooName = true ∧
      attachedSuppression fooName exAttachOther = false := by decide

theorem mem_fileCandidates (content name : List Char) :
    name ∈ fileCandidates content ↔
      ∃ p ∈ implScanAll content, passesFilters content p = true ∧ p.2 = name := by
  unfold fileCandidates
  rw [List.mem_toFinset, List.mem_map]
  constructor
  · rintro ⟨p, hp, he⟩
    rw [List.mem_filter] at hp
    exact ⟨p, hp.1, hp.2, he⟩
  · rintro ⟨p, hp, hpass, he⟩
    exact ⟨p, List.mem_filter.mpr ⟨hp, hpass⟩, he⟩

theorem mem_find_udf_implementations (files : List (List Char)) (name : List Char) :
    name ∈ find_udf_implementations files ↔ ∃ f ∈ files, name ∈ fileCandidates f := by
  unfold find_udf_implementations
  induction files with
  | nil => simp
  | cons f fs ih =>
    simp only [List.map_cons, List.foldr_cons, Finset.mem_union, ih, List.mem_cons]
    constructor
    · rintro (h | ⟨g, hg, hm⟩)
      · exact ⟨f, Or.inl rfl, h⟩
      · exact ⟨g, Or.inr hg, hm⟩
    · rintro ⟨g, hg | hg, hm⟩
      · rw [← hg]; exact Or.inl hm
      · exact Or.inr ⟨g, hg, hm⟩

/-- C4 (amended): an implementation-declaration match at an offset where
the block-comment-open markers strictly before it outnumber the close
markers strictly before it is excluded by the comment filter; when every
match for a name is so placed, the name is never added to the candidate
set.  Mere enclosure of the match line between an open marker and a later
close marker does not suffice when stray close markers occur earlier. -/
theorem C4_unmatched_open_excluded (files : List (List Char)) (name : List Char)
    (h : ∀ f ∈ files, ∀ p ∈ implScanAll f, p.2 = name →
      markersBefore '*' '/' f p.1 < markersBefore '/' '*' f p.1) :
    (∀ f ∈ files, ∀ p ∈ implScanAll f, p.2 = name →
      is_commented_out f p.1 = true) ∧
    name ∉ find_udf_implementations files := by
  have hexcl : ∀ f ∈ files, ∀ p ∈ implScanAll f, p.2 = name →
      is_commented_out f p.1 = true := by
    intro f hf p hp hn
    have hblock : blockCommentCheck f p.1 = true := by
      unfold blockCommentCheck
      rw [decide_eq_true_eq,
        countSub2_take_eq_markersBefore '/' '*' (by decide) f p.1,
        countSub2_take_eq_markersBefore '*' '/' (by decide) f p.1]
      exact h f hf p hp hn
    unfold is_commented_out
    rw [hblock, Bool.or_true]
  refine ⟨hexcl, fun hmem => ?_⟩
  obtain ⟨f, hf, hfc⟩ := (mem_find_udf_implementations files name).mp hmem
  obtain ⟨p, hp, hpass, hname⟩ := (mem_fileCandidates f name).mp hfc
  have hco := hexcl f hf p hp hname
  unfold passesFilters at hpass
  rw [hco] at hpass
  simp at hpass

theorem C4_witness : fooName ∉ find_udf_implementations [exCommentedImpl] :=
  (C4_unmatched_open_excluded [exCommentedImpl] fooName (by decide)).2

/-- C4 counterexample: in exStrayClose the line of the match at offset 6
lies entirely between the open marker at offset 3 and the close marker at
offset 33, yet a stray close marker at offset 0 balances the heuristic
count, the comment filter does not exclude the match, and Foo is added to
the candidate set — refuting the claim as stated. -/
theorem C4_counterexample :
    (6, fooName) ∈ implScanAll exStrayClose ∧
      pairAt '/' '*' exStrayClose 3 = true ∧
      pairAt '*' '/' exStrayClose 33 = true ∧
      3 + 2 ≤ lineStartAt exStrayClose 6 ∧
      lineEndAt exStrayClose 6 ≤ 33 ∧
      is_commented_out exStrayClose 6 = false ∧
      fooName ∈ find_udf_implementations [exStrayClose] := by
  decide

/-- C9: every match yielded by the registration scan contributes its name
to the registered set with no comment filtering; in particular a match
whose offset the comment filter would judge commented out is still added. -/
theorem C9_no_comment_filter (lib : List Char) (p : Nat × List Char)
    (h : p ∈ regScanAll lib) :
    p.2 ∈ find_registered_udfs lib ∧
      (is_commented_out lib p.1 = true → p.2 ∈ find_registered_udfs lib) := by
  have hm : p.2 ∈ find_registered_udfs lib := by
    unfold find_registered_udfs
    rw [List.mem_toFinset, List.mem_map]
    exact ⟨p, h, rfl⟩
  exact ⟨hm, fun _ => hm⟩

theorem C9_witness :
    fooName ∈ find_registered_udfs exRegCommented ∧
      is_commented_out exRegCommented 3 = true :=
  ⟨(C9_no_comment_filter exRegCommented (3, fooName) (by decide)).1, by decide⟩

/-- C1: when the central registration file is present, so the run reaches
the verification stage, the exit code is 1 exactly when the missing set
is non-empty and 0 exactly when it is empty. -/
theorem C1_outcome_iff_missing (fs : FS) (lib : List Char)
    (h : fs.libRs = some lib) :
    ((mainRun fs).2 = 1 ↔
      (find_udf_implementations (rglobFiles fs) \
        find_registered_udfs lib).Nonempty) ∧
    ((mainRun fs).2 = 0 ↔
      find_udf_implementations (rglobFiles fs) \
        find_registered_udfs lib = ∅) := by
  simp only [mainRun, h]
  by_cases hne : (find_udf_implementations (rglobFiles fs) \
      find_registered_udfs lib).Nonempty
  · rw [if_pos hne]
    have hne2 := Finset.nonempty_iff_ne_empty.mp hne
    simp [hne, hne2]
  · rw [if_neg hne]
    have he := Finset.not_nonempty_iff_eq_empty.mp hne
    simp [hne, he]

theorem C1_witness : (mainRun fsEmpty).2 = 0 :=
  (C1_outcome_iff_missing fsEmpty [] rfl).2.mpr (by decide)

/-- C6 (amended): when the implementation-root directory does not exist,
no configuration error is raised; the scan silently yields no files, the
candidate set is empty, and with the registration file present the run
completes with a full report and exit code 0. -/
theorem C6_missing_root_scans_empty (fs : FS) (lib : List Char)
    (hdir : fs.udfDirExists = false) (hlib : fs.libRs = some lib) :
    find_udf_implementations (rglobFiles fs) = ∅ ∧
      (mainRun fs).2 = 0 ∧
      (mainRun fs).1 =
        [Line.header, Line.implCount 0,
          Line.regCount (find_registered_udfs lib).card] ++
          (sortNames (find_registered_udfs lib)).map Line.regItem ++
          [Line.success] := by
  have hglob : rglobFiles fs = [] := by
    unfold rglobFiles
    rw [hdir]
    rfl
  have himpl : find_udf_implementations (rglobFiles fs) = ∅ := by
    rw [hglob]
    rfl
  refine ⟨himpl, ?_⟩
  simp only [mainRun, hlib, himpl]
  rw [Finset.empty_sdiff]
  rw [if_neg (by exact Finset.not_nonempty_empty)]
  constructor
  · rfl
  · simp [sortNames, Finset.sort_empty]

/-- C6 counterexample: with the implementation root absent and lib.rs
present, the run does not fail before scanning with a configuration
error; it produces the complete report and exits 0. -/
theorem C6_counterexample :
    mainRun fsNoDir =
      ([Line.header, Line.implCount 0, Line.regCount 0, Line.success], 0) := by
  have himpl : find_udf_implementations (rglobFiles fsNoDir) = ∅ := rfl
  have hreg : find_registered_udfs [] = ∅ := rfl
  simp only [mainRun, himpl, hreg, show fsNoDir.libRs = some [] from rfl]
  simp [sortNames, Finset.empty_sdiff, Finset.not_nonempty_empty,
    Finset.sort_empty]

/-- C7 (amended): when the central registration file is absent the run
exits 1 and prints neither the registered listing nor the missing
listing, but the candidate listing has already been printed before the
abort. -/
theorem C7_abort_after_candidates (fs : FS) (h : fs.libRs = none) :
    (mainRun fs).1 =
      [Line.header,
        Line.implCount (find_udf_implementations (rglobFiles fs)).card] ++
        (sortNames (find_udf_implementations (rglobFiles fs))).map
          Line.implItem ++
        [Line.libMissing] ∧
    (mainRun fs).2 = 1 := by
  simp only [mainRun, h]
  constructor <;> simp

/-- C7 counterexample: with lib.rs missing, the candidate listing line for
Foo is printed before the abort, refuting the claim that no part of the
report is produced. -/
theorem C7_counterexample :
    mainRun fsLibMissing =
      ([Line.header, Line.implCount 1, Line.implItem fooName,
        Line.libMissing], 1) := by
  have himpl : find_udf_implementations (rglobFiles fsLibMissing)
      = {fooName} := by decide
  simp only [mainRun, himpl, show fsLibMissing.libRs = none from rfl]
  simp [sortNames, Finset.sort_singleton]

theorem find_udf_implementations_perm (l1 l2 : List (List Char))
    (h : l1.Perm l2) :
    find_udf_implementations l1 = find_udf_implementations l2 := by
  unfold find_udf_implementations
  induction h with
  | nil => rfl
  | cons x h ih => simp only [List.map_cons, List.foldr_cons, ih]
  | swap x y l =>
    simp only [List.map_cons, List.foldr_cons]
    exact Finset.union_left_comm _ _ _
  | trans h1 h2 ih1 ih2 => rw [ih1, ih2]

theorem filterMap_map_none (f : Line → Option (List Char))
    (g : List Char → Line) (hf : ∀ a, f (g a) = none) (l : List (List Char)) :
    (l.map g).filterMap f = [] := by
  induction l with
  | nil => rfl
  | cons a t ih => simp [List.filterMap_cons, hf, ih]

theorem filterMap_map_some (f : Line → Option (List Char))
    (g : List Char → Line) (hf : ∀ a, f (g a) = some a) (l : List (List Char)) :
    (l.map g).filterMap f = l := by
  induction l with
  | nil => rfl
  | cons a t ih => simp [List.filterMap_cons, hf, ih]

theorem mainRun_impl_sorted (fs : FS) :
    ((mainRun fs).1.filterMap lineImplName).Sorted (fun a b => a ≤ b) := by
  rcases hl : fs.libRs with _ | lib
  · simp only [mainRun, hl]
    simp [List.filterMap_append, List.filterMap_cons,
      filterMap_map_some lineImplName Line.implItem (fun a => rfl),
      show lineImplName Line.header = none from rfl,
      show ∀ n, lineImplName (Line.implCount n) = none from fun _ => rfl,
      show lineImplName Line.libMissing = none from rfl]
    exact Finset.sort_sorted _ _
  · simp only [mainRun, hl]
    by_cases hne : (find_udf_implementations (rglobFiles fs) \
        find_registered_udfs lib).Nonempty
    · rw [if_pos hne]
      simp [List.filterMap_append, List.filterMap_cons,
        filterMap_map_some lineImplName Line.implItem (fun a => rfl),
        filterMap_map_none lineImplName Line.regItem (fun a => rfl),
        filterMap_map_none lineImplName Line.missingItem (fun a => rfl),
        show lineImplName Line.header = none from rfl,
        show ∀ n, lineImplName (Line.implCount n) = none from fun _ => rfl,
        show ∀ n, lineImplName (Line.regCount n) = none from fun _ => rfl,
        show ∀ n, lineImplName (Line.missingCount n) = none from fun _ => rfl,
        show lineImplName Line.advice = none from rfl]
      exact Finset.sort_sorted _ _
    · rw [if_neg hne]
      simp [List.filterMap_append, List.filterMap_cons,
        filterMap_map_some lineImplName Line.implItem (fun a => rfl),
        filterMap_map_none lineImplName Line.regItem (fun a => rfl),
        show lineImplName Line.header = none from rfl,
        show ∀ n, lineImplName (Line.implCount n) = none from fun _ => rfl,
        show ∀ n, lineImplName (Line.regCount n) = none from fun _ => rfl,
        show lineImplName Line.success = none from rfl]
      exact Finset.sort_sorted _ _

theorem mainRun_reg_sorted (fs : FS) :
    ((mainRun fs).1.filterMap lineRegName).Sorted (fun a b => a ≤ b) := by
  rcases hl : fs.libRs with _ | lib
  · simp only [mainRun, hl]
    simp [List.filterMap_append, List.filterMap_cons,
      filterMap_map_none lineRegName Line.implItem (fun a => rfl),
      show lineRegName Line.header = none from rfl,
      show ∀ n, lineRegName (Line.implCount n) = none from fun _ => rfl,
      show lineRegName Line.libMissing = none from rfl]
  · simp only [mainRun, hl]
    by_cases hne : (find_udf_implementations (rglobFiles fs) \
        find_registered_udfs lib).Nonempty
    · rw [if_pos hne]
      simp [List.filterMap_append, List.filterMap_cons,
        filterMap_map_some lineRegName Line.regItem (fun a => rfl),
        filterMap_map_none lineRegName Line.implItem (fun a => rfl),
        filterMap_map_none lineRegName Line.missingItem (fun a => rfl),
        show lineRegName Line.header = none from rfl,
        show ∀ n, lineRegName (Line.implCount n) = none from fun _ => rfl,
        show ∀ n, lineRegName (Line.regCount n) = none from fun _ => rfl,
        show ∀ n, lineRegName (Line.missingCount n) = none from fun _ => rfl,
        show lineRegName Line.advice = none from rfl]
      exact Finset.sort_sorted _ _
    · rw [if_neg hne]
      simp [List.filterMap_append, List.filterMap_cons,
        filterMap_map_some lineRegName Line.regItem (fun a => rfl),
        filterMap_map_none lineRegName Line.implItem (fun a => rfl),
        show lineRegName Line.header = none from rfl,
        show ∀ n, lineRegName (Line.implCount n) = none from fun _ => rfl,
        show ∀ n, lineRegName (Line.regCount n) = none from fun _ => rfl,
        show lineRegName Line.success = none from rfl]
      exact Finset.sort_sorted _ _

theorem mainRun_missing_sorted (fs : FS) :
    ((mainRun fs).1.filterMap lineMissingName).Sorted (fun a b => a ≤ b) := by
  rcases hl : fs.libRs with _ | lib
  · simp only [mainRun, hl]
    simp [List.filterMap_append, List.filterMap_cons,
      filterMap_map_none lineMissingName Line.implItem (fun a => rfl),
      show lineMissingName Line.header = none from rfl,
      show ∀ n, lineMissingName (Line.implCount n) = none from fun _ => rfl,
      show lineMissingName Line.libMissing = none from rfl]
  · simp only [mainRun, hl]
    by_cases hne : (find_udf_implementations (rglobFiles fs) \
        find_registered_udfs lib).Nonempty
    · rw [if_pos hne]
      simp [List.filterMap_append, List.filterMap_cons,
        filterMap_map_some lineMissingName Line.missingItem (fun a => rfl),
        filterMap_map_none lineMissingName Line.implItem (fun a => rfl),
        filterMap_map_none lineMissingName Line.regItem (fun a => rfl),
        show lineMissingName Line.header = none from rfl,
        show ∀ n, lineMissingName (Line.implCount n) = none from fun _ => rfl,
        show ∀ n, lineMissingName (Line.regCount n) = none from fun _ => rfl,
        show ∀ n, lineMissingName (Line.missingCount n) = none from fun _ => rfl,
        show lineMissingName Line.advice = none from rfl]
      exact Finset.sort_sorted _ _
    · rw [if_neg hne]
      simp [List.filterMap_append, List.filterMap_cons,
        filterMap_map_none lineMissingName Line.implItem (fun a => rfl),
        filterMap_map_none lineMissingName Line.regItem (fun a => rfl),
        show lineMissingName Line.header = none from rfl,
        show ∀ n, lineMissingName (Line.implCount n) = none from fun _ => rfl,
        show ∀ n, lineMissingName (Line.regCount n) = none from fun _ => rfl,
        show lineMissingName Line.success = none from rfl]

/-- C8: the verifier is deterministic: with the same directory state, the
same file contents up to traversal order, and the same registration file,
two runs produce identical reports and exit codes; and each of the
candidate, registered and missing listings of the report is sorted. -/
theorem C8_deterministic_sorted (fs1 fs2 : FS)
    (hd : fs1.udfDirExists = fs2.udfDirExists)
    (hp : fs1.udfFiles.Perm fs2.udfFiles)
    (hl : fs1.libRs = fs2.libRs) :
    mainRun fs1 = mainRun fs2 ∧
      ((mainRun fs1).1.filterMap lineImplName).Sorted (fun a b => a ≤ b) ∧
      ((mainRun fs1).1.filterMap lineRegName).Sorted (fun a b => a ≤ b) ∧
      ((mainRun fs1).1.filterMap lineMissingName).Sorted (fun a b => a ≤ b) := by
  have himpl : find_udf_implementations (rglobFiles fs1)
      = find_udf_implementations (rglobFiles fs2) := by
    unfold rglobFiles
    rw [hd]
    by_cases hde : fs2.udfDirExists = true
    · rw [if_pos hde, if_pos hde]
      exact find_udf_implementations_perm _ _ hp
    · rw [if_neg hde, if_neg hde]
  refine ⟨?_, mainRun_impl_sorted fs1, mainRun_reg_sorted fs1,
    mainRun_missing_sorted fs1⟩
  simp only [mainRun, himpl, hl]

theorem C8_witness : mainRun fsPermA = mainRun fsPermB :=
  (C8_deterministic_sorted fsPermA fsPermB rfl
    (List.Perm.swap exImplFileB exImplFile []) rfl).1

theorem C3_witness : blockCommentCheck exCommentedImpl 3 = true :=
  (C3_block_comment_heuristic exCommentedImpl 3).mpr (by decide)

theorem C5_witness : has_allow_dead_code exAttached fooName = true :=
  (C5_suppression_positional exAttached fooName).mpr
    ⟨[], ['\n'], structFooTail, by decide, by decide, by decide, by decide⟩

theorem C6_witness : (mainRun fsNoDirB).2 = 0 ∧
    find_udf_implementations (rglobFiles fsNoDirB) = ∅ :=
  ⟨(C6_missing_root_scans_empty fsNoDirB [] rfl rfl).2.1,
    (C6_missing_root_scans_empty fsNoDirB [] rfl rfl).1⟩

theorem C7_witness : (mainRun fsLibMissingB).2 = 1 :=
  (C7_abort_after_candidates fsLibMissingB rfl).2
